import Mathlib

/-!
Verification of the retention bot's computational core (src/app.py).

Strings are modelled as lists of characters (`Str := List Char`).
Python floating-point values are modelled as exact decimal fractions
(an integer mantissa together with a power-of-ten scale), so all of
the arithmetic in the embedding is exact integer arithmetic; the
rational value of such a fraction is used in specification statements.
-/

deriving instance DecidableEq for Except

namespace Retention

/-- Strings are modelled as lists of characters. -/
abbrev Str := List Char

/-- Convert a Lean string literal into the list-of-characters model. -/
def ofString (s : String) : Str := s.data

/-- The whitespace characters stripped by Python's `str.strip` and matched
by the regex whitespace class (ASCII and the common Unicode space code
points). -/
def isSpacePy (c : Char) : Bool :=
  c = ' ' || c = '\t' || c = '\n' || c = '\r' || c = '\x0b' || c = '\x0c' ||
  c = '\x1c' || c = '\x1d' || c = '\x1e' || c = '\x1f' || c = '\x85' ||
  c = '\xa0' || c = '\u1680' || ('\u2000' ≤ c && c ≤ '\u200a') ||
  c = '\u2028' || c = '\u2029' || c = '\u202f' || c = '\u205f' || c = '\u3000'

/-- The line-boundary characters recognised by Python's `str.splitlines`. -/
def isLineBreak (c : Char) : Bool :=
  c = '\n' || c = '\r' || c = '\x0b' || c = '\x0c' ||
  c = '\x1c' || c = '\x1d' || c = '\x1e' || c = '\x85' ||
  c = '\u2028' || c = '\u2029'

/-- Remove trailing whitespace (the second half of Python's `str.strip`). -/
def dropTrailingSpaces (l : Str) : Str :=
  (l.reverse.dropWhile isSpacePy).reverse

/-- Python's `str.strip()`: remove leading and trailing whitespace. -/
def pyStrip (l : Str) : Str :=
  dropTrailingSpaces (l.dropWhile isSpacePy)

/-- Worker for `pySplitlines`; `cur` holds the current line reversed. -/
def splitlinesGo : Str → Str → List Str
  | cur, '\r' :: '\n' :: rest =>
      cur.reverse :: (if rest.isEmpty then [] else splitlinesGo [] rest)
  | cur, c :: rest =>
      if isLineBreak c then
        cur.reverse :: (if rest.isEmpty then [] else splitlinesGo [] rest)
      else
        splitlinesGo (c :: cur) rest
  | cur, [] => [cur.reverse]

/-- Python's `str.splitlines()` (no terminal empty line; `\r\n` is one
boundary; the empty string yields no lines). -/
def pySplitlines (l : Str) : List Str :=
  match l with
  | [] => []
  | _ => splitlinesGo [] l

/-- The non-empty stripped lines of a text, as computed at app.py line 56:
`[ln.strip() for ln in stats_text.splitlines() if ln.strip()]`. -/
def pyLines (s : Str) : List Str :=
  ((pySplitlines s).map pyStrip).filter (fun l => !l.isEmpty)

/-- Does `s` begin with the pattern `pat`? -/
def startsWithStr (pat s : Str) : Bool :=
  s.take pat.length == pat

/-- `sep` occurs in `s` at position `i`. -/
def occursAt (sep s : Str) (i : ℕ) : Prop :=
  startsWithStr sep (s.drop i) = true

/-- Split `s` at the first occurrence of `sep`, returning the parts before
and after it; `none` when `sep` does not occur.  This models Python's
`sep in s` test combined with `s.split(sep, 1)`. -/
def splitFirstOn (sep : Str) : Str → Option (Str × Str)
  | [] => if startsWithStr sep [] then some ([], []) else none
  | c :: rest =>
      if startsWithStr sep (c :: rest) then
        some ([], (c :: rest).drop sep.length)
      else
        (splitFirstOn sep rest).map (fun p => (c :: p.1, p.2))

/-- `10 ^ k` as an integer, by structural recursion (kernel friendly). -/
def pow10 : ℕ → ℤ
  | 0 => 1
  | k + 1 => 10 * pow10 k

/-- The decimal digit character for `d` (digits above 9 never occur). -/
def digitChar (d : ℕ) : Char :=
  match d with
  | 0 => '0' | 1 => '1' | 2 => '2' | 3 => '3' | 4 => '4'
  | 5 => '5' | 6 => '6' | 7 => '7' | 8 => '8' | _ => '9'

/-- Fuel-based worker producing the base-10 digits of `n`, most
significant first. -/
def natToDigitsCore : ℕ → ℕ → Str
  | 0, _ => []
  | fuel + 1, n =>
      if n < 10 then [digitChar n]
      else natToDigitsCore fuel (n / 10) ++ [digitChar (n % 10)]

/-- The base-10 digit string of a natural number. -/
def natToDigits (n : ℕ) : Str := natToDigitsCore (n + 1) n

/-- Numeric value of a string of decimal digit characters. -/
def natVal (l : Str) : ℕ :=
  l.foldl (fun a c => 10 * a + (c.toNat - 48)) 0

/-- Group a reversed digit string into blocks of three separated by
commas (fuel-based). -/
def groupRevCore : ℕ → Str → Str
  | 0, l => l
  | fuel + 1, l =>
      if l.length ≤ 3 then l
      else l.take 3 ++ ',' :: groupRevCore fuel (l.drop 3)

/-- app.py `format_currency`: integer rendered with thousands-group
comma separators, as by Python's format specifier `{n:,}`. -/
def format_currency (n : ℤ) : Str :=
  (if n < 0 then ['-'] else []) ++
    (groupRevCore (natToDigits n.natAbs).length
      (natToDigits n.natAbs).reverse).reverse

/-- Python `int()` on a string drawn from the cleaned alphabet of digits
and `-`: an optional leading minus sign followed by at least one digit. -/
def parseIntPy (l : Str) : Option ℤ :=
  match l with
  | '-' :: rest =>
      if !rest.isEmpty && rest.all (fun c => c.isDigit) then
        some (-(natVal rest : ℤ))
      else none
  | _ =>
      if !l.isEmpty && l.all (fun c => c.isDigit) then
        some ((natVal l : ℤ))
      else none

/-- An exact decimal fraction `num / 10 ^ scale`, the model of a Python
float produced by parsing a decimal literal. -/
structure Dec where
  num : ℤ
  scale : ℕ
deriving DecidableEq

/-- The rational value of a decimal fraction (specification side). -/
def Dec.toQ (d : Dec) : ℚ := (d.num : ℚ) / (10 : ℚ) ^ d.scale

/-- Python `float()` on a string drawn from the cleaned alphabet of
digits, `.` and `-`: an optional leading minus sign followed by
`digits`, `digits.digits`, `digits.` or `.digits`.  The value is kept
as an exact decimal fraction. -/
def parseFloatPy (l : Str) : Option Dec :=
  let sgn : Bool := decide (l.head? = some '-')
  let body := if sgn then l.drop 1 else l
  let ip := body.takeWhile (fun c => c.isDigit)
  let rest := body.drop ip.length
  match rest with
  | [] =>
      if ip.isEmpty then none
      else some ⟨(if sgn then -(natVal ip : ℤ) else (natVal ip : ℤ)), 0⟩
  | '.' :: fp =>
      if fp.all (fun c => c.isDigit) && !(ip.isEmpty && fp.isEmpty) then
        let m : ℤ := (natVal ip : ℤ) * pow10 fp.length + (natVal fp : ℤ)
        some ⟨(if sgn then -m else m), fp.length⟩
      else none
  | _ => none

/-- app.py line 169, `pct = max(0.0, min(100.0, pct))`, acting on an
exact decimal fraction. -/
def pclamp (d : Dec) : Dec :=
  if d.num ≤ 0 then ⟨0, 0⟩
  else if 100 * pow10 d.scale ≤ d.num then ⟨100, 0⟩
  else d

/-- Round `a / b` (with `b > 0` at all call sites) to the nearest
integer, ties to even — the rounding used when Python formats a value
with `:.2f`. -/
def roundHalfEvenDiv (a b : ℤ) : ℤ :=
  let f := a / b
  let r := a - f * b
  if 2 * r < b then f
  else if b < 2 * r then f + 1
  else if f % 2 = 0 then f else f + 1

/-- Render a natural number below 100 with exactly two digits. -/
def pad2 (k : ℕ) : Str :=
  if k < 10 then '0' :: natToDigits k else natToDigits k

/-- Python `f"{v:.2f}"` for the exact value `a / b` (`b > 0`): fixed
two-decimal rendering with round-half-to-even. -/
def fmtFixed2Frac (a b : ℤ) : Str :=
  let m := roundHalfEvenDiv (100 * a) b
  (if m < 0 then ['-'] else []) ++
    natToDigits (m.natAbs / 100) ++ '.' :: pad2 (m.natAbs % 100)

/-- app.py line 40: keep only digits and minus signs. -/
def cleanIntChars (l : Str) : Str :=
  l.filter (fun c => c.isDigit || c = '-')

/-- app.py line 157: keep only digits, dots and minus signs. -/
def cleanRetentionChars (l : Str) : Str :=
  l.filter (fun c => c.isDigit || c = '.' || c = '-')

/-- app.py `parse_salary_to_int`: clean the text to digits and minus
signs, reject `""`, `"-"`, `"--"`, then parse as an integer. -/
def parse_salary_to_int (s : Str) : Option ℤ :=
  if s.isEmpty then none
  else
    let cleaned := cleanIntChars s
    if cleaned = [] ∨ cleaned = ['-'] ∨ cleaned = ['-', '-'] then none
    else parseIntPy cleaned

/-- The regex character class `[:\s\-]` of the name-line pattern. -/
def sepClass (c : Char) : Bool :=
  c = ':' || isSpacePy c || c = '-'

/-- Lowercase a string (ASCII, as regex `re.I` matching does). -/
def lowerStr (l : Str) : Str := l.map (fun c => c.toLower)

/-- Case-insensitively strip the (lowercase) pattern `pat` from the
front of `l`, returning the remainder. -/
def stripCIHead (pat l : Str) : Option Str :=
  if lowerStr (l.take pat.length) = pat then some (l.drop pat.length)
  else none

/-- Greedy match of the regex tail `[:\s\-]+(.{2,60})$` against `rest`:
the separator run takes as many characters as possible while leaving a
capture of 2 to 60 characters reaching the end of the line. -/
def greedyCap (rest : Str) : Option Str :=
  let k := (rest.takeWhile sepClass).length
  let j := min k (rest.length - 2)
  if 1 ≤ j ∧ rest.length - j ≤ 60 then some (rest.drop j) else none

/-- app.py line 61: `re.search(r"^(?:Name|Player)[:\s\-]+(.{2,60})$", ln,
flags=re.I)`, returning the captured group. -/
def nameLineMatch (ln : Str) : Option Str :=
  match stripCIHead (ofString "name") ln with
  | some rest =>
      match greedyCap rest with
      | some cap => some cap
      | none =>
          match stripCIHead (ofString "player") ln with
          | some rest2 => greedyCap rest2
          | none => none
  | none =>
      match stripCIHead (ofString "player") ln with
      | some rest => greedyCap rest
      | none => none

/-- app.py `extract_player_name`: heuristic extraction of a player name
from a pasted stats block. -/
def extract_player_name (s : Str) : Str :=
  match pyLines s with
  | [] => ofString "Unknown Player"
  | first :: _ =>
      match List.findSome? nameLineMatch ((pyLines s).take 8) with
      | some cap => pyStrip cap
      | none =>
          match splitFirstOn (ofString " - ") first with
          | some (a, _) => pyStrip a
          | none =>
              match splitFirstOn [','] first with
              | some (a, _) =>
                  if a.length < 40 then pyStrip a
                  else pyStrip (first.take 60)
              | none => pyStrip (first.take 60)

/-- app.py line 211: the stats text unchanged if at most 1000 characters,
otherwise its first 997 characters followed by three literal dots. -/
def statsPreviewOf (t : Str) : Str :=
  if t.length ≤ 1000 then t else t.take 997 ++ ofString "..."

/-- app.py lines 122-132: split the teams text on the first occurrence of
`"->"`, else `"/"`, else `","`, trimming both parts; no separator gives
`(trimmed text, "Unknown")`. -/
def splitTeams (teamsRaw : Str) : Str × Str :=
  let raw := pyStrip teamsRaw
  match splitFirstOn (ofString "->") raw with
  | some (a, b) => (pyStrip a, pyStrip b)
  | none =>
      match splitFirstOn (ofString "/") raw with
      | some (a, b) => (pyStrip a, pyStrip b)
      | none =>
          match splitFirstOn [','] raw with
          | some (a, b) => (pyStrip a, pyStrip b)
          | none => (raw, ofString "Unknown")

/-- app.py lines 148-154: clean the years text to digits and minus signs,
treat an empty result as `0`, parse as an integer, and reject negative
values. -/
def yearsDigits (yearsText : Str) : Str :=
  let c := cleanIntChars (pyStrip yearsText)
  if c.isEmpty then ['0'] else c

/-- app.py lines 148-154: parse the cleaned years text as an integer and
reject negative values. -/
def parseYears (yearsText : Str) : Option ℤ :=
  match parseIntPy (yearsDigits yearsText) with
  | none => none
  | some y => if y < 0 then none else some y

/-- The retention mode chosen by the upstream button. -/
inductive Mode where
  | percent
  | numeric
deriving DecidableEq

/-- The structured rejection reasons of the input normaliser and
calculator. -/
inductive RejectionReason where
  | invalidSalary
  | invalidYears
  | invalidRetention
  | invalidRetentionPercent
  | invalidRetentionAmount
deriving DecidableEq

/-- The validated record produced by the input normaliser. -/
structure NormalizedTrade where
  fromTeam : Str
  toTeam : Str
  playerName : Str
  statsPreview : Str
  salaryCents : ℤ
  yearsRetained : ℤ
  mode : Mode
  retentionRaw : Str
deriving DecidableEq

/-- The result of the retention calculation.  The implied percentage is
kept as the exact fraction `pctNum / pctDen` (`pctDen > 0`), the model
of the float `pct` of app.py. -/
structure RetentionResult where
  retainedAmount : ℤ
  remainingAmount : ℤ
  pctNum : ℤ
  pctDen : ℤ
  percentDisplay : Str
  expireYear : ℤ
deriving DecidableEq

/-- The input-normalisation stage of `on_submit` (app.py lines 122-160):
team split, stats strip and player-name extraction, then the salary,
years and retention-cleanup checks in that order. -/
def normalize (mode : Mode) (teams stats salary retention years : Str) :
    Except RejectionReason NormalizedTrade :=
  let ts := splitTeams teams
  let statsText := pyStrip stats
  let player := extract_player_name statsText
  match parse_salary_to_int (pyStrip salary) with
  | none => .error .invalidSalary
  | some sv =>
      match parseYears years with
      | none => .error .invalidYears
      | some y =>
          let rr := cleanRetentionChars (pyStrip retention)
          if rr.isEmpty then .error .invalidRetention
          else
            .ok ⟨ts.1, ts.2, player, statsPreviewOf statsText, sv, y,
                  mode, rr⟩

/-- The retention calculation of `on_submit` (app.py lines 162-185), with
the calendar year injected. -/
def compute (n : NormalizedTrade) (currentYear : ℤ) :
    Except RejectionReason RetentionResult :=
  match n.mode with
  | .percent =>
      match parseFloatPy n.retentionRaw with
      | none => .error .invalidRetentionPercent
      | some d =>
          let c : Dec := pclamp d
          let retained : ℤ := n.salaryCents * c.num / (100 * pow10 c.scale)
          .ok ⟨retained, n.salaryCents - retained, c.num, pow10 c.scale,
                fmtFixed2Frac c.num (pow10 c.scale) ++ ['%'],
                currentYear + n.yearsRetained⟩
  | .numeric =>
      match parseFloatPy n.retentionRaw with
      | none => .error .invalidRetentionAmount
      | some d =>
          let r0 : ℤ := d.num.tdiv (pow10 d.scale)
          let retained : ℤ := max 0 r0
          let remaining : ℤ := max 0 (n.salaryCents - retained)
          let pn : ℤ := if 0 < n.salaryCents then retained * 100 else 0
          let pd : ℤ := if 0 < n.salaryCents then n.salaryCents else 1
          .ok ⟨retained, remaining, pn, pd,
                '$' :: format_currency retained ++
                  ofString " (" ++ fmtFixed2Frac pn pd ++ ofString "%)",
                currentYear + n.yearsRetained⟩

/-- The whole `on_submit` flow: normalisation followed by the retention
calculation. -/
def on_submit (mode : Mode) (teams stats salary retention years : Str)
    (currentYear : ℤ) :
    Except RejectionReason (NormalizedTrade × RetentionResult) :=
  match normalize mode teams stats salary retention years with
  | .error e => .error e
  | .ok n =>
      match compute n currentYear with
      | .error e => .error e
      | .ok r => .ok (n, r)

/-! ### Specification-side notions -/

/-- Truncation toward zero of a rational number — the effect of Python's
`int()` on a (model) float value (specification side). -/
def ratTrunc (q : ℚ) : ℤ := if 0 ≤ q then ⌊q⌋ else ⌈q⌉

/-- The implied percentage carried by a result, as an exact rational. -/
def RetentionResult.pctQ (r : RetentionResult) : ℚ :=
  (r.pctNum : ℚ) / (r.pctDen : ℚ)

/-- A two-decimal percent display: a non-empty dot-free head, one dot,
exactly two decimal digits, and a trailing percent character. -/
def TwoDecimalPercentDisplay (out : Str) : Prop :=
  ∃ pre d1 d2, out = pre ++ ['.', d1, d2, '%'] ∧ d1.isDigit = true ∧
    d2.isDigit = true ∧ '.' ∉ pre ∧ pre ≠ []

/-! ### Arithmetic and digit-rendering lemmas -/

theorem pow10_eq (k : ℕ) : pow10 k = (10 : ℤ) ^ k := by
  induction k with
  | zero => rfl
  | succ k ih => rw [pow10, ih, pow_succ]; ring

theorem pow10_pos (k : ℕ) : 0 < pow10 k := by
  rw [pow10_eq]; positivity

theorem digitChar_isDigit (d : ℕ) : (digitChar d).isDigit = true := by
  unfold digitChar
  split <;> decide

theorem natToDigitsCore_ne_nil (fuel n : ℕ) (h : n < fuel) :
    natToDigitsCore fuel n ≠ [] := by
  induction fuel generalizing n with
  | zero => omega
  | succ fuel ih =>
      rw [natToDigitsCore]
      by_cases h10 : n < 10
      · simp [h10]
      · simp only [h10, if_false]
        intro hcontra
        exact absurd hcontra (by simp)

theorem natToDigitsCore_digits (fuel n : ℕ) (h : n < fuel) :
    ∀ c ∈ natToDigitsCore fuel n, c.isDigit = true := by
  induction fuel generalizing n with
  | zero => omega
  | succ fuel ih =>
      intro c hc
      rw [natToDigitsCore] at hc
      by_cases h10 : n < 10
      · simp [h10] at hc
        rw [hc]; exact digitChar_isDigit n
      · simp only [h10, if_false, List.mem_append, List.mem_singleton] at hc
        rcases hc with hc | hc
        · exact ih (n / 10) (by omega) c hc
        · rw [hc]; exact digitChar_isDigit _

theorem natToDigits_ne_nil (n : ℕ) : natToDigits n ≠ [] :=
  natToDigitsCore_ne_nil (n + 1) n (by omega)

theorem natToDigits_digits (n : ℕ) :
    ∀ c ∈ natToDigits n, c.isDigit = true :=
  natToDigitsCore_digits (n + 1) n (by omega)

theorem isDigit_ne_dot {c : Char} (h : c.isDigit = true) : c ≠ '.' := by
  intro h'
  rw [h'] at h
  exact absurd h (by decide)

theorem natToDigitsCore_small (fuel n : ℕ) (h : n < 10) (hf : 0 < fuel) :
    natToDigitsCore fuel n = [digitChar n] := by
  cases fuel with
  | zero => omega
  | succ fuel => rw [natToDigitsCore]; simp [h]

theorem pad2_two_digits (k : ℕ) (h : k < 100) :
    ∃ d1 d2, pad2 k = [d1, d2] ∧ d1.isDigit = true ∧ d2.isDigit = true := by
  unfold pad2
  by_cases h10 : k < 10
  · refine ⟨'0', digitChar k, ?_, by decide, digitChar_isDigit k⟩
    rw [if_pos h10, natToDigits, natToDigitsCore_small _ _ h10 (by omega)]
  · refine ⟨digitChar (k / 10), digitChar (k % 10), ?_, digitChar_isDigit _,
      digitChar_isDigit _⟩
    rw [if_neg h10, natToDigits, natToDigitsCore]
    rw [if_neg h10, natToDigitsCore_small _ _ (by omega) (by omega)]
    rfl

theorem fmtFixed2Frac_structure (a b : ℤ) :
    ∃ pre d1 d2, fmtFixed2Frac a b = pre ++ ['.', d1, d2] ∧
      d1.isDigit = true ∧ d2.isDigit = true ∧ '.' ∉ pre ∧ pre ≠ [] := by
  have hdef : fmtFixed2Frac a b =
      ((if roundHalfEvenDiv (100 * a) b < 0 then ['-'] else []) ++
        natToDigits ((roundHalfEvenDiv (100 * a) b).natAbs / 100)) ++
        '.' :: pad2 ((roundHalfEvenDiv (100 * a) b).natAbs % 100) := rfl
  obtain ⟨d1, d2, hp, h1, h2⟩ :=
    pad2_two_digits ((roundHalfEvenDiv (100 * a) b).natAbs % 100)
      (Nat.mod_lt _ (by norm_num))
  refine ⟨(if roundHalfEvenDiv (100 * a) b < 0 then ['-'] else []) ++
      natToDigits ((roundHalfEvenDiv (100 * a) b).natAbs / 100), d1, d2,
      ?_, h1, h2, ?_, ?_⟩
  · rw [hdef, hp]
  · intro hmem
    rcases List.mem_append.mp hmem with hmem | hmem
    · split at hmem <;> simp_all
    · exact absurd rfl (isDigit_ne_dot (natToDigits_digits _ _ hmem))
  · intro hcontra
    rcases List.append_eq_nil.mp hcontra with ⟨-, h2nil⟩
    exact natToDigits_ne_nil _ h2nil

/-! ### Claim C9: stats preview truncation -/

/-- C9: the stats preview leaves a text of at most 1000 characters
unchanged, and replaces a longer text by its first 997 characters
followed by three literal dots, so a 1001-character input yields a
1000-character output ending in the three-dot marker and a
1000-character input is unchanged. -/
theorem C9_stats_preview :
    (∀ t : Str,
      (t.length ≤ 1000 → statsPreviewOf t = t) ∧
      (1000 < t.length →
        statsPreviewOf t = t.take 997 ++ ofString "..." ∧
        (statsPreviewOf t).length = 1000 ∧
        (statsPreviewOf t).drop 997 = ofString "...")) ∧
    statsPreviewOf (List.replicate 1001 'a') =
      List.replicate 997 'a' ++ ofString "..." ∧
    (statsPreviewOf (List.replicate 1001 'a')).length = 1000 ∧
    (statsPreviewOf (List.replicate 1001 'a')).drop 997 = ofString "..." ∧
    statsPreviewOf (List.replicate 1000 'a') = List.replicate 1000 'a' := by
  have main : ∀ t : Str,
      (t.length ≤ 1000 → statsPreviewOf t = t) ∧
      (1000 < t.length →
        statsPreviewOf t = t.take 997 ++ ofString "..." ∧
        (statsPreviewOf t).length = 1000 ∧
        (statsPreviewOf t).drop 997 = ofString "...") := by
    intro t
    constructor
    · intro h
      simp [statsPreviewOf, h]
    · intro h
      have h' : ¬ t.length ≤ 1000 := by omega
      have htake : (t.take 997).length = 997 := by
        simp [List.length_take]
        omega
      have hdots : (ofString "...").length = 3 := by decide
      refine ⟨by simp [statsPreviewOf, h'], ?_, ?_⟩
      · simp only [statsPreviewOf, h', if_false, List.length_append, htake,
          hdots]
      · simp only [statsPreviewOf, h', if_false]
        exact List.drop_left' htake
  have len1001 : 1000 < (List.replicate 1001 'a').length := by
    rw [List.length_replicate]
    norm_num
  refine ⟨main, ?_, ?_, ?_, ?_⟩
  · have := (main (List.replicate 1001 'a')).2 len1001
    rw [this.1, List.take_replicate]
    norm_num
  · exact ((main (List.replicate 1001 'a')).2 len1001).2.1
  · exact ((main (List.replicate 1001 'a')).2 len1001).2.2
  · refine (main (List.replicate 1000 'a')).1 ?_
    rw [List.length_replicate]

/-- C9 witness: the concrete 1001-character truncation instance. -/
theorem C9_witness :
    statsPreviewOf (List.replicate 1001 'a') =
      List.replicate 997 'a' ++ ofString "..." ∧
    (statsPreviewOf (List.replicate 1001 'a')).length = 1000 :=
  ⟨C9_stats_preview.2.1, C9_stats_preview.2.2.1⟩

/-! ### Claim C5: salary parsing -/

/-- C5: salary parsing keeps only digits and minus signs and fails with
the invalid-salary rejection exactly when the cleaned text is empty,
a lone minus, a double minus, or fails integer parsing; the listed
concrete inputs behave as stated. -/
theorem C5_salary_parsing :
    (∀ s : Str,
      (parse_salary_to_int s = none ↔
        (cleanIntChars s = [] ∨ cleanIntChars s = ['-'] ∨
          cleanIntChars s = ['-', '-'] ∨
          parseIntPy (cleanIntChars s) = none)) ∧
      (∀ v : ℤ, parse_salary_to_int s = some v →
        parseIntPy (cleanIntChars s) = some v)) ∧
    parse_salary_to_int (ofString "$12,000,000") = some 12000000 ∧
    parse_salary_to_int (ofString "12000000") = some 12000000 ∧
    parse_salary_to_int (ofString "") = none ∧
    parse_salary_to_int (ofString "-") = none := by
  refine ⟨?_, by decide, by decide, by decide, by decide⟩
  intro s
  constructor
  · unfold parse_salary_to_int
    rcases s with _ | ⟨c, cs⟩
    · simp [cleanIntChars]
    · simp only [List.isEmpty_cons, Bool.false_eq_true, if_false]
      by_cases hbad : cleanIntChars (c :: cs) = [] ∨
          cleanIntChars (c :: cs) = ['-'] ∨ cleanIntChars (c :: cs) = ['-', '-']
      · simp only [hbad, if_true]
        constructor
        · intro _
          tauto
        · intro _
          trivial
      · simp only [hbad, if_false]
        push_neg at hbad
        constructor
        · intro h
          tauto
        · intro h
          rcases h with h | h | h | h
          · exact absurd h hbad.1
          · exact absurd h hbad.2.1
          · exact absurd h hbad.2.2
          · exact h
  · intro v h
    unfold parse_salary_to_int at h
    rcases s with _ | ⟨c, cs⟩
    · simp at h
    · simp only [List.isEmpty_cons, Bool.false_eq_true, if_false] at h
      by_cases hbad : cleanIntChars (c :: cs) = [] ∨
          cleanIntChars (c :: cs) = ['-'] ∨ cleanIntChars (c :: cs) = ['-', '-']
      · rw [if_pos hbad] at h
        exact absurd h (by simp)
      · rwa [if_neg hbad] at h

/-- C5 witness: the concrete salary-parsing instances. -/
theorem C5_witness :
    parse_salary_to_int (ofString "$12,000,000") = some 12000000 ∧
    parse_salary_to_int (ofString "-") = none :=
  ⟨C5_salary_parsing.2.1, C5_salary_parsing.2.2.2.2⟩

/-! ### First-occurrence splitting lemmas -/

theorem startsWithStr_iff (pat s : Str) :
    startsWithStr pat s = true ↔ s.take pat.length = pat := by
  unfold startsWithStr
  exact beq_iff_eq

theorem occursAt_nil {sep : Str} (hsep : sep ≠ []) (i : ℕ) :
    ¬ occursAt sep [] i := by
  unfold occursAt
  rw [List.drop_nil, startsWithStr_iff, List.take_nil]
  exact fun h => hsep h.symm

theorem occursAt_cons_succ (sep : Str) (c : Char) (cs : Str) (i : ℕ) :
    occursAt sep (c :: cs) (i + 1) ↔ occursAt sep cs i := by
  unfold occursAt
  rw [List.drop_succ_cons]

theorem splitFirstOn_none (sep : Str) (hsep : sep ≠ []) (s : Str) :
    splitFirstOn sep s = none ↔ ∀ i, ¬ occursAt sep s i := by
  induction s with
  | nil =>
      constructor
      · intro _ i
        exact occursAt_nil hsep i
      · intro _
        unfold splitFirstOn
        rw [if_neg]
        rw [startsWithStr_iff, List.take_nil]
        exact fun h => hsep h.symm
  | cons c cs ih =>
      unfold splitFirstOn
      by_cases hsw : startsWithStr sep (c :: cs) = true
      · rw [if_pos hsw]
        constructor
        · intro h
          exact absurd h (by simp)
        · intro h
          have h0 : occursAt sep (c :: cs) 0 := by
            unfold occursAt
            rwa [List.drop_zero]
          exact absurd h0 (h 0)
      · rw [if_neg hsw]
        constructor
        · intro h i
          have htail : splitFirstOn sep cs = none := by
            cases hs : splitFirstOn sep cs with
            | none => rfl
            | some p => rw [hs] at h; exact absurd h (by simp)
          cases i with
          | zero =>
              intro h0
              unfold occursAt at h0
              rw [List.drop_zero] at h0
              exact hsw h0
          | succ i =>
              rw [occursAt_cons_succ]
              exact (ih.mp htail) i
        · intro h
          have htail : splitFirstOn sep cs = none := by
            apply ih.mpr
            intro i
            rw [← occursAt_cons_succ sep c cs i]
            exact h (i + 1)
          rw [htail]
          rfl

theorem splitFirstOn_some (sep : Str) (s a b : Str)
    (h : splitFirstOn sep s = some (a, b)) :
    s = a ++ sep ++ b ∧ (∀ j < a.length, ¬ occursAt sep s j) ∧
      occursAt sep s a.length := by
  induction s generalizing a b with
  | nil =>
      unfold splitFirstOn at h
      by_cases hsw : startsWithStr sep ([] : Str) = true
      · rw [if_pos hsw] at h
        have hsep : sep = [] := by
          rw [startsWithStr_iff, List.take_nil] at hsw
          exact hsw.symm
        have h' := Option.some.inj h
        injection h' with ha hb
        subst ha hb hsep
        refine ⟨rfl, ?_, ?_⟩
        · intro j hj
          exact absurd hj (by simp)
        · unfold occursAt startsWithStr
          simp
      · rw [if_neg hsw] at h
        exact absurd h (by simp)
  | cons c cs ih =>
      unfold splitFirstOn at h
      by_cases hsw : startsWithStr sep (c :: cs) = true
      · rw [if_pos hsw] at h
        have h' := Option.some.inj h
        injection h' with ha hb
        subst ha hb
        have htk : (c :: cs).take sep.length = sep :=
          (startsWithStr_iff sep (c :: cs)).mp hsw
        refine ⟨?_, ?_, ?_⟩
        · conv_lhs => rw [← List.take_append_drop sep.length (c :: cs)]
          rw [htk, List.nil_append]
        · intro j hj
          exact absurd hj (by simp)
        · unfold occursAt
          rwa [List.length_nil, List.drop_zero]
      · rw [if_neg hsw] at h
        cases hs : splitFirstOn sep cs with
        | none =>
            rw [hs] at h
            exact absurd h (by simp)
        | some p =>
            rw [hs] at h
            simp only [ Option.map_some'] at h
            have h' := Option.some.inj h
            injection h' with ha hb
            subst ha hb
            obtain ⟨hdec, hleast, hocc⟩ := ih p.1 p.2 (by rw [hs])
            refine ⟨?_, ?_, ?_⟩
            · rw [List.cons_append, List.cons_append, ← hdec]
            · intro j hj
              cases j with
              | zero =>
                  intro h0
                  unfold occursAt at h0
                  rw [List.drop_zero] at h0
                  exact hsw h0
              | succ j =>
                  rw [occursAt_cons_succ]
                  exact hleast j (by simpa using hj)
            · rw [List.length_cons, occursAt_cons_succ]
              exact hocc

theorem splitFirstOn_some_of_occurs {sep : Str} (hsep : sep ≠ []) {s : Str}
    (h : ∃ i, occursAt sep s i) : ∃ p, splitFirstOn sep s = some p := by
  cases hs : splitFirstOn sep s with
  | some p => exact ⟨p, rfl⟩
  | none =>
      rcases h with ⟨i, hi⟩
      exact absurd hi ((splitFirstOn_none sep hsep s).mp hs i)

/-! ### Claim C7: team splitting -/

/-- C7: the team split scans for the separators arrow, slash, comma in
that priority order, splits at the first occurrence of the first
matching separator with both parts trimmed, and yields the trimmed text
with the team "Unknown" when no separator occurs; the three concrete
examples behave as stated. -/
theorem C7_team_split :
    (∀ teams : Str,
      ((∃ i, occursAt (ofString "->") (pyStrip teams) i) →
        ∃ a b, pyStrip teams = a ++ ofString "->" ++ b ∧
          (∀ j < a.length, ¬ occursAt (ofString "->") (pyStrip teams) j) ∧
          splitTeams teams = (pyStrip a, pyStrip b)) ∧
      ((∀ i, ¬ occursAt (ofString "->") (pyStrip teams) i) →
        (∃ i, occursAt (ofString "/") (pyStrip teams) i) →
        ∃ a b, pyStrip teams = a ++ ofString "/" ++ b ∧
          (∀ j < a.length, ¬ occursAt (ofString "/") (pyStrip teams) j) ∧
          splitTeams teams = (pyStrip a, pyStrip b)) ∧
      ((∀ i, ¬ occursAt (ofString "->") (pyStrip teams) i) →
        (∀ i, ¬ occursAt (ofString "/") (pyStrip teams) i) →
        (∃ i, occursAt [','] (pyStrip teams) i) →
        ∃ a b, pyStrip teams = a ++ [','] ++ b ∧
          (∀ j < a.length, ¬ occursAt [','] (pyStrip teams) j) ∧
          splitTeams teams = (pyStrip a, pyStrip b)) ∧
      ((∀ i, ¬ occursAt (ofString "->") (pyStrip teams) i) →
        (∀ i, ¬ occursAt (ofString "/") (pyStrip teams) i) →
        (∀ i, ¬ occursAt [','] (pyStrip teams) i) →
        splitTeams teams = (pyStrip teams, ofString "Unknown"))) ∧
    splitTeams (ofString "Rangers -> Devils") =
      (ofString "Rangers", ofString "Devils") ∧
    splitTeams (ofString "Rangers / Devils") =
      (ofString "Rangers", ofString "Devils") ∧
    splitTeams (ofString "Rangers") =
      (ofString "Rangers", ofString "Unknown") := by
  refine ⟨?_, by decide, by decide, by decide⟩
  intro teams
  refine ⟨?_, ?_, ?_, ?_⟩
  · intro hocc
    obtain ⟨⟨a, b⟩, hs⟩ := splitFirstOn_some_of_occurs (by decide) hocc
    obtain ⟨hdec, hleast, -⟩ := splitFirstOn_some _ _ _ _ hs
    exact ⟨a, b, hdec, hleast, by simp [splitTeams, hs]⟩
  · intro hno hocc
    have h1 : splitFirstOn (ofString "->") (pyStrip teams) = none :=
      (splitFirstOn_none _ (by decide) _).mpr hno
    obtain ⟨⟨a, b⟩, hs⟩ := splitFirstOn_some_of_occurs (by decide) hocc
    obtain ⟨hdec, hleast, -⟩ := splitFirstOn_some _ _ _ _ hs
    exact ⟨a, b, hdec, hleast, by simp [splitTeams, h1, hs]⟩
  · intro hno1 hno2 hocc
    have h1 : splitFirstOn (ofString "->") (pyStrip teams) = none :=
      (splitFirstOn_none _ (by decide) _).mpr hno1
    have h2 : splitFirstOn (ofString "/") (pyStrip teams) = none :=
      (splitFirstOn_none _ (by decide) _).mpr hno2
    obtain ⟨⟨a, b⟩, hs⟩ := splitFirstOn_some_of_occurs (by decide) hocc
    obtain ⟨hdec, hleast, -⟩ := splitFirstOn_some _ _ _ _ hs
    exact ⟨a, b, hdec, hleast, by simp [splitTeams, h1, h2, hs]⟩
  · intro hno1 hno2 hno3
    have h1 : splitFirstOn (ofString "->") (pyStrip teams) = none :=
      (splitFirstOn_none _ (by decide) _).mpr hno1
    have h2 : splitFirstOn (ofString "/") (pyStrip teams) = none :=
      (splitFirstOn_none _ (by decide) _).mpr hno2
    have h3 : splitFirstOn [','] (pyStrip teams) = none :=
      (splitFirstOn_none _ (by decide) _).mpr hno3
    simp [splitTeams, h1, h2, h3]

/-- C7 witness: the concrete team-split instances. -/
theorem C7_witness :
    splitTeams (ofString "Rangers -> Devils") =
      (ofString "Rangers", ofString "Devils") ∧
    splitTeams (ofString "Rangers") =
      (ofString "Rangers", ofString "Unknown") :=
  ⟨C7_team_split.2.1, C7_team_split.2.2.2⟩

/-! ### Pipeline inversion lemmas -/

theorem normalize_ok_fields {mode : Mode} {t s sal r y : Str}
    {n : NormalizedTrade}
    (h : normalize mode t s sal r y = .ok n) :
    n.fromTeam = (splitTeams t).1 ∧ n.toTeam = (splitTeams t).2 ∧
    n.playerName = extract_player_name (pyStrip s) ∧
    n.statsPreview = statsPreviewOf (pyStrip s) ∧
    parse_salary_to_int (pyStrip sal) = some n.salaryCents ∧
    parseYears y = some n.yearsRetained ∧
    n.mode = mode ∧
    n.retentionRaw = cleanRetentionChars (pyStrip r) ∧
    n.retentionRaw ≠ [] := by
  unfold normalize at h
  cases hsal : parse_salary_to_int (pyStrip sal) with
  | none =>
      rw [hsal] at h
      exact absurd h (by simp)
  | some sv =>
      rw [hsal] at h
      cases hy : parseYears y with
      | none =>
          rw [hy] at h
          exact absurd h (by simp)
      | some yv =>
          rw [hy] at h
          dsimp only at h
          by_cases hrr : (cleanRetentionChars (pyStrip r)).isEmpty = true
          · rw [if_pos hrr] at h
            exact absurd h (by simp)
          · rw [if_neg hrr] at h
            have h' := Except.ok.inj h
            subst h'
            refine ⟨rfl, rfl, rfl, rfl, rfl, rfl, rfl, rfl, ?_⟩
            intro hnil
            apply hrr
            rw [show cleanRetentionChars (pyStrip r) = [] from hnil]
            rfl

theorem compute_ok_expire {n : NormalizedTrade} {cy : ℤ}
    {res : RetentionResult} (h : compute n cy = .ok res) :
    res.expireYear = cy + n.yearsRetained := by
  unfold compute at h
  cases hm : n.mode with
  | percent =>
      rw [hm] at h
      dsimp only at h
      cases hp : parseFloatPy n.retentionRaw with
      | none =>
          rw [hp] at h
          exact absurd h (by simp)
      | some d =>
          rw [hp] at h
          dsimp only at h
          have h' := Except.ok.inj h
          rw [← h']
  | numeric =>
      rw [hm] at h
      dsimp only at h
      cases hp : parseFloatPy n.retentionRaw with
      | none =>
          rw [hp] at h
          exact absurd h (by simp)
      | some d =>
          rw [hp] at h
          dsimp only at h
          have h' := Except.ok.inj h
          rw [← h']

/-! ### Claim C6: years parsing and expiry year -/

/-- C6: years parsing strips the text to digits and minus signs, treats
an empty result as zero, and fails exactly when the cleaned digits fail
integer parsing or parse to a negative value; on every successful
submission the expiry year is the injected current year plus the
retained years. -/
theorem C6_years_parsing :
    (∀ yt : Str,
      (parseYears yt = none ↔
        (parseIntPy (yearsDigits yt) = none ∨
          ∃ v, parseIntPy (yearsDigits yt) = some v ∧ v < 0)) ∧
      (∀ v : ℤ, parseYears yt = some v →
        parseIntPy (yearsDigits yt) = some v ∧ 0 ≤ v)) ∧
    (∀ (mode : Mode) (t s sal r yt : Str) (cy : ℤ)
        (n : NormalizedTrade) (res : RetentionResult),
      normalize mode t s sal r yt = .ok n →
      compute n cy = .ok res →
      parseYears yt = some n.yearsRetained ∧
      res.expireYear = cy + n.yearsRetained) := by
  constructor
  · intro yt
    constructor
    · unfold parseYears
      cases hp : parseIntPy (yearsDigits yt) with
      | none => simp
      | some v =>
          by_cases hv : v < 0
          · simp only [hv, if_true]
            constructor
            · intro _
              exact Or.inr ⟨v, rfl, hv⟩
            · intro _
              trivial
          · simp only [hv, if_false]
            constructor
            · intro hcontra
              exact absurd hcontra (by simp)
            · rintro (hcontra | ⟨w, hw, hwneg⟩)
              · exact absurd hcontra (by simp)
              · have := Option.some.inj hw
                subst this
                exact absurd hwneg hv
    · intro v h
      unfold parseYears at h
      cases hp : parseIntPy (yearsDigits yt) with
      | none =>
          rw [hp] at h
          exact absurd h (by simp)
      | some w =>
          rw [hp] at h
          dsimp only at h
          by_cases hw : w < 0
          · rw [if_pos hw] at h
            exact absurd h (by simp)
          · rw [if_neg hw] at h
            have := Option.some.inj h
            subst this
            exact ⟨rfl, by omega⟩
  · intro mode t s sal r yt cy n res hn hc
    exact ⟨(normalize_ok_fields hn).2.2.2.2.2.1, compute_ok_expire hc⟩

/-- The concrete normalized trade of the percent-mode end-to-end
scenario with tiny inputs. -/
def tradeC6 : NormalizedTrade :=
  ⟨ofString "A", ofString "Unknown", ofString "B", ofString "B", 5, 2,
    Mode.percent, ofString "25"⟩

/-- The retention result computed for `tradeC6` with current year
2020. -/
def resultC6 : RetentionResult :=
  ⟨1, 4, 25, 1, ofString "25.00%", 2022⟩

/-- C6 witness: the concrete years-parsing and expiry instance. -/
theorem C6_witness :
    parseYears (ofString "2") = some tradeC6.yearsRetained ∧
    resultC6.expireYear = 2020 + tradeC6.yearsRetained :=
  C6_years_parsing.2 Mode.percent (ofString "A") (ofString "B")
    (ofString "5") (ofString "25") (ofString "2") 2020 tradeC6 resultC6
    (by decide) (by decide)

/-! ### Claim C10: the stats text is stripped before use -/

/-- C10: the raw stats text is stripped of leading and trailing
whitespace, and both the player-name extraction and the 1000-character
preview check operate on the stripped text, so a raw text longer than
1000 characters whose stripped form is at most 1000 characters passes
through without truncation. -/
theorem C10_stats_stripped :
    (∀ (mode : Mode) (t s sal r y : Str) (n : NormalizedTrade),
      normalize mode t s sal r y = .ok n →
      n.playerName = extract_player_name (pyStrip s) ∧
      n.statsPreview = statsPreviewOf (pyStrip s) ∧
      ((pyStrip s).length ≤ 1000 → n.statsPreview = pyStrip s)) ∧
    (' ' :: List.replicate 1000 'a').length = 1001 ∧
    pyStrip (' ' :: List.replicate 1000 'a') = List.replicate 1000 'a' ∧
    statsPreviewOf (pyStrip (' ' :: List.replicate 1000 'a')) =
      pyStrip (' ' :: List.replicate 1000 'a') := by
  have hstrip : pyStrip (' ' :: List.replicate 1000 'a') =
      List.replicate 1000 'a' := by
    unfold pyStrip dropTrailingSpaces
    rw [List.dropWhile_cons]
    have hsp : isSpacePy ' ' = true := by decide
    rw [if_pos hsp]
    have hdw : List.dropWhile isSpacePy (List.replicate 1000 'a') =
        List.replicate 1000 'a' := by
      rw [List.replicate_succ, List.dropWhile_cons,
        if_neg (by decide : ¬ isSpacePy 'a' = true), ← List.replicate_succ]
    rw [hdw, List.reverse_replicate, hdw, List.reverse_replicate]
  have hprev : statsPreviewOf (pyStrip (' ' :: List.replicate 1000 'a')) =
      pyStrip (' ' :: List.replicate 1000 'a') := by
    rw [hstrip]
    unfold statsPreviewOf
    rw [if_pos]
    rw [List.length_replicate]
  refine ⟨?_, by rw [List.length_cons, List.length_replicate], hstrip, hprev⟩
  intro mode t s sal r y n h
  have hf := normalize_ok_fields h
  refine ⟨hf.2.2.1, hf.2.2.2.1, ?_⟩
  intro hlen
  rw [hf.2.2.2.1]
  unfold statsPreviewOf
  rw [if_pos hlen]

/-- The concrete normalized trade used to witness the stripped-stats
behaviour. -/
def tradeC10 : NormalizedTrade :=
  ⟨ofString "X", ofString "Unknown", ofString "hi", ofString "hi", 1, 0,
    Mode.numeric, ofString "2"⟩

/-- C10 witness: a concrete submission whose stats text carries
surrounding whitespace. -/
theorem C10_witness :
    tradeC10.playerName = extract_player_name (pyStrip (ofString " hi ")) ∧
    tradeC10.statsPreview = statsPreviewOf (pyStrip (ofString " hi ")) ∧
    ((pyStrip (ofString " hi ")).length ≤ 1000 →
      tradeC10.statsPreview = pyStrip (ofString " hi ")) :=
  C10_stats_stripped.1 Mode.numeric (ofString "X") (ofString " hi ")
    (ofString "1") (ofString "2") (ofString "0") tradeC10 (by decide)

/-! ### Arithmetic bridges between the integer code and the rational
specification -/

theorem intdiv_natCast_eq_floor (a : ℤ) (N : ℕ) :
    a / (N : ℤ) = ⌊(a : ℚ) / (N : ℚ)⌋ :=
  (Rat.floor_intCast_div_natCast a N).symm

theorem percent_retained_floor (s cn : ℤ) (k : ℕ) :
    s * cn / (100 * pow10 k) =
      ⌊(s : ℚ) * ((cn : ℚ) / (10 : ℚ) ^ k) / 100⌋ := by
  have h1 : (100 * pow10 k) = ((100 * 10 ^ k : ℕ) : ℤ) := by
    rw [pow10_eq]
    push_cast
    ring
  rw [h1, intdiv_natCast_eq_floor]
  congr 1
  push_cast
  rw [← mul_div_assoc, div_div, mul_comm ((10 : ℚ) ^ k) 100]

theorem tdiv_pow10_eq_ratTrunc (m : ℤ) (k : ℕ) :
    m.tdiv (pow10 k) = ratTrunc ((m : ℚ) / (10 : ℚ) ^ k) := by
  have hposQ : (0 : ℚ) < (10 : ℚ) ^ k := by positivity
  have hpw : pow10 k = ((10 ^ k : ℕ) : ℤ) := by
    rw [pow10_eq]
    push_cast
    ring
  by_cases hm : 0 ≤ m
  · have hq : 0 ≤ (m : ℚ) / (10 : ℚ) ^ k :=
      div_nonneg (by exact_mod_cast hm) (le_of_lt hposQ)
    rw [ratTrunc, if_pos hq, Int.tdiv_eq_ediv hm (le_of_lt (pow10_pos k)),
      hpw, intdiv_natCast_eq_floor]
    congr 1
    push_cast
    ring
  · push_neg at hm
    have hq : (m : ℚ) / (10 : ℚ) ^ k < 0 :=
      div_neg_of_neg_of_pos (by exact_mod_cast hm) hposQ
    rw [ratTrunc, if_neg (not_le.mpr hq)]
    have hc : ⌈(m : ℚ) / (10 : ℚ) ^ k⌉ = -⌊-((m : ℚ) / (10 : ℚ) ^ k)⌋ := by
      rw [Int.floor_neg, neg_neg]
    rw [hc]
    have hneg : -((m : ℚ) / (10 : ℚ) ^ k) = ((-m : ℤ) : ℚ) / (10 : ℚ) ^ k := by
      push_cast
      ring
    rw [hneg]
    have h2 : (-m).tdiv (pow10 k) = ⌊((-m : ℤ) : ℚ) / (10 : ℚ) ^ k⌋ := by
      rw [Int.tdiv_eq_ediv (by omega) (le_of_lt (pow10_pos k)), hpw,
        intdiv_natCast_eq_floor]
      congr 1
      push_cast
      ring
    rw [← h2, Int.neg_tdiv, neg_neg]

theorem pclamp_num_bounds (d : Dec) :
    0 ≤ (pclamp d).num ∧ (pclamp d).num ≤ 100 * pow10 (pclamp d).scale := by
  unfold pclamp
  by_cases h1 : d.num ≤ 0
  · rw [if_pos h1]
    refine ⟨le_refl 0, ?_⟩
    show (0 : ℤ) ≤ 100 * pow10 0
    simp [pow10]
  · rw [if_neg h1]
    by_cases h2 : 100 * pow10 d.scale ≤ d.num
    · rw [if_pos h2]
      constructor
      · show (0 : ℤ) ≤ 100
        norm_num
      · show (100 : ℤ) ≤ 100 * pow10 0
        simp [pow10]
    · rw [if_neg h2]
      exact ⟨by omega, by omega⟩

theorem cast_hundred_pow10 (k : ℕ) :
    ((100 * pow10 k : ℤ) : ℚ) = 100 * (10 : ℚ) ^ k := by
  rw [pow10_eq]
  push_cast
  ring

theorem pclamp_toQ (d : Dec) :
    (pclamp d).toQ = max 0 (min 100 d.toQ) := by
  have hpow : (0 : ℚ) < (10 : ℚ) ^ d.scale := by positivity
  unfold pclamp
  by_cases h1 : d.num ≤ 0
  · rw [if_pos h1]
    have hq : d.toQ ≤ 0 := by
      unfold Dec.toQ
      exact div_nonpos_iff.mpr (Or.inr ⟨by exact_mod_cast h1, le_of_lt hpow⟩)
    rw [min_eq_right (le_trans hq (by norm_num)), max_eq_left hq]
    unfold Dec.toQ
    norm_num
  · by_cases h2 : 100 * pow10 d.scale ≤ d.num
    · rw [if_neg h1, if_pos h2]
      have hq : (100 : ℚ) ≤ d.toQ := by
        unfold Dec.toQ
        rw [le_div_iff₀ hpow]
        calc (100 : ℚ) * (10 : ℚ) ^ d.scale
            = ((100 * pow10 d.scale : ℤ) : ℚ) := (cast_hundred_pow10 d.scale).symm
          _ ≤ (d.num : ℚ) := by exact_mod_cast h2
      rw [min_eq_left hq, max_eq_right (by norm_num : (0 : ℚ) ≤ 100)]
      unfold Dec.toQ
      norm_num
    · rw [if_neg h1, if_neg h2]
      push_neg at h1 h2
      have hq0 : 0 ≤ d.toQ :=
        le_of_lt (div_pos (by exact_mod_cast h1) hpow)
      have hq100 : d.toQ ≤ 100 := by
        unfold Dec.toQ
        rw [div_le_iff₀ hpow]
        calc (d.num : ℚ) ≤ ((100 * pow10 d.scale : ℤ) : ℚ) := by
              exact_mod_cast le_of_lt h2
          _ = 100 * (10 : ℚ) ^ d.scale := cast_hundred_pow10 d.scale
      rw [min_eq_right hq100, max_eq_right hq0]

/-! ### Reduction lemmas for `compute` -/

theorem compute_percent_eq (n : NormalizedTrade) (cy : ℤ) (d : Dec)
    (hm : n.mode = Mode.percent) (hp : parseFloatPy n.retentionRaw = some d) :
    compute n cy = .ok
      ⟨n.salaryCents * (pclamp d).num / (100 * pow10 (pclamp d).scale),
        n.salaryCents -
          n.salaryCents * (pclamp d).num / (100 * pow10 (pclamp d).scale),
        (pclamp d).num, pow10 (pclamp d).scale,
        fmtFixed2Frac (pclamp d).num (pow10 (pclamp d).scale) ++ ['%'],
        cy + n.yearsRetained⟩ := by
  unfold compute
  rw [hm]
  dsimp only
  rw [hp]

theorem compute_percent_fail (n : NormalizedTrade) (cy : ℤ)
    (hm : n.mode = Mode.percent) (hp : parseFloatPy n.retentionRaw = none) :
    compute n cy = .error RejectionReason.invalidRetentionPercent := by
  unfold compute
  rw [hm]
  dsimp only
  rw [hp]

theorem compute_numeric_eq (n : NormalizedTrade) (cy : ℤ) (d : Dec)
    (hm : n.mode = Mode.numeric) (hp : parseFloatPy n.retentionRaw = some d) :
    compute n cy = .ok
      ⟨max 0 (d.num.tdiv (pow10 d.scale)),
        max 0 (n.salaryCents - max 0 (d.num.tdiv (pow10 d.scale))),
        (if 0 < n.salaryCents
          then max 0 (d.num.tdiv (pow10 d.scale)) * 100 else 0),
        (if 0 < n.salaryCents then n.salaryCents else 1),
        '$' :: format_currency (max 0 (d.num.tdiv (pow10 d.scale))) ++
          ofString " (" ++
          fmtFixed2Frac
            (if 0 < n.salaryCents
              then max 0 (d.num.tdiv (pow10 d.scale)) * 100 else 0)
            (if 0 < n.salaryCents then n.salaryCents else 1) ++
          ofString "%)",
        cy + n.yearsRetained⟩ := by
  unfold compute
  rw [hm]
  dsimp only
  rw [hp]

theorem compute_numeric_fail (n : NormalizedTrade) (cy : ℤ)
    (hm : n.mode = Mode.numeric) (hp : parseFloatPy n.retentionRaw = none) :
    compute n cy = .error RejectionReason.invalidRetentionAmount := by
  unfold compute
  rw [hm]
  dsimp only
  rw [hp]

/-! ### Claim C1: result invariants -/

/-- The numeric-mode trade retaining more than the whole salary. -/
def tradeC1 : NormalizedTrade :=
  ⟨ofString "A", ofString "B", ofString "P", ofString "x", 100, 1,
    Mode.numeric, ofString "200"⟩

/-- C1 counterexample: in numeric mode a retention of 200 against a
salary of 100 is accepted unclamped, so the retained and remaining
amounts sum to 200, not to the positive salary 100. -/
theorem C1_counterexample :
    (compute tradeC1 2024).map
        (fun r => (r.retainedAmount, r.remainingAmount)) =
      Except.ok ((200 : ℤ), (0 : ℤ)) ∧
    (0 : ℤ) < tradeC1.salaryCents ∧
    (200 : ℤ) + 0 ≠ tradeC1.salaryCents := by
  exact ⟨by decide, by decide, by decide⟩

/-- C1 (amended): for a normalized trade with non-negative salary, every
computed result has non-negative retained and remaining amounts; the two
sum to the salary in percent mode always, and in numeric mode exactly
when the retained amount does not exceed the salary (there is no upper
clamp, and the remainder is zero when retention exceeds the salary); the
remainder is zero whenever the salary is zero. -/
theorem C1_amended (n : NormalizedTrade) (cy : ℤ) (res : RetentionResult)
    (hs : 0 ≤ n.salaryCents) (h : compute n cy = Except.ok res) :
    0 ≤ res.retainedAmount ∧ 0 ≤ res.remainingAmount ∧
    (n.mode = Mode.percent →
      res.retainedAmount + res.remainingAmount = n.salaryCents) ∧
    (n.mode = Mode.numeric → res.retainedAmount ≤ n.salaryCents →
      res.retainedAmount + res.remainingAmount = n.salaryCents) ∧
    (n.mode = Mode.numeric → n.salaryCents < res.retainedAmount →
      res.remainingAmount = 0) ∧
    (n.salaryCents = 0 → res.remainingAmount = 0) := by
  cases hm : n.mode with
  | percent =>
      cases hp : parseFloatPy n.retentionRaw with
      | none =>
          rw [compute_percent_fail n cy hm hp] at h
          exact absurd h (by simp)
      | some d =>
          rw [compute_percent_eq n cy d hm hp] at h
          have h' := Except.ok.inj h
          subst h'
          dsimp only
          have hDpos : 0 < 100 * pow10 (pclamp d).scale :=
            mul_pos (by norm_num) (pow10_pos _)
          obtain ⟨hn0, hn1⟩ := pclamp_num_bounds d
          have hret0 : 0 ≤ n.salaryCents * (pclamp d).num /
              (100 * pow10 (pclamp d).scale) :=
            Int.ediv_nonneg (mul_nonneg hs hn0) (le_of_lt hDpos)
          have hretle : n.salaryCents * (pclamp d).num /
              (100 * pow10 (pclamp d).scale) ≤ n.salaryCents := by
            have h1 : n.salaryCents * (pclamp d).num ≤
                n.salaryCents * (100 * pow10 (pclamp d).scale) :=
              mul_le_mul_of_nonneg_left hn1 hs
            have h2 := Int.ediv_le_ediv hDpos h1
            rwa [Int.mul_ediv_cancel _ (ne_of_gt hDpos)] at h2
          refine ⟨hret0, by omega, fun _ => by omega, ?_, ?_, fun _ => by omega⟩
          · intro hmn
            exact absurd hmn (by decide)
          · intro hmn
            exact absurd hmn (by decide)
  | numeric =>
      cases hp : parseFloatPy n.retentionRaw with
      | none =>
          rw [compute_numeric_fail n cy hm hp] at h
          exact absurd h (by simp)
      | some d =>
          rw [compute_numeric_eq n cy d hm hp] at h
          have h' := Except.ok.inj h
          subst h'
          dsimp only
          refine ⟨by omega, by omega, ?_, fun _ hle => by omega,
            fun _ hlt => by omega, fun hs0 => by omega⟩
          intro hmn
          exact absurd hmn (by decide)

/-- The concrete percent-mode trade of the end-to-end scenario. -/
def tradeP : NormalizedTrade :=
  ⟨ofString "Rangers", ofString "Devils", ofString "J. Smith", ofString "s",
    8000000, 2, Mode.percent, ofString "25"⟩

/-- The result computed for `tradeP` with current year 2024. -/
def resultP : RetentionResult :=
  ⟨2000000, 6000000, 25, 1, ofString "25.00%", 2026⟩

/-- C1 witness: the amended invariants at the concrete percent trade. -/
theorem C1_witness :
    0 ≤ resultP.retainedAmount ∧ 0 ≤ resultP.remainingAmount ∧
    (tradeP.mode = Mode.percent →
      resultP.retainedAmount + resultP.remainingAmount = tradeP.salaryCents) ∧
    (tradeP.mode = Mode.numeric →
      resultP.retainedAmount ≤ tradeP.salaryCents →
      resultP.retainedAmount + resultP.remainingAmount = tradeP.salaryCents) ∧
    (tradeP.mode = Mode.numeric →
      tradeP.salaryCents < resultP.retainedAmount →
      resultP.remainingAmount = 0) ∧
    (tradeP.salaryCents = 0 → resultP.remainingAmount = 0) :=
  C1_amended tradeP 2024 resultP (by decide) (by decide)

/-! ### Claim C2: percent mode -/

/-- C2: in percent mode with a non-negative salary, the parsed
percentage is clamped to the closed interval from 0 to 100, the
retained amount is the floor of salary times percentage over one
hundred, the remainder is salary minus retained (so the two sum to the
salary), and the display renders the clamped percentage with exactly
two decimal digits and a trailing percent sign. -/
theorem C2_percent_mode (n : NormalizedTrade) (cy : ℤ) (d : Dec)
    (hm : n.mode = Mode.percent) (_hs : 0 ≤ n.salaryCents)
    (hp : parseFloatPy n.retentionRaw = some d) :
    ∃ res, compute n cy = Except.ok res ∧
      res.pctQ = max 0 (min 100 d.toQ) ∧
      0 ≤ res.pctQ ∧ res.pctQ ≤ 100 ∧
      res.retainedAmount = ⌊(n.salaryCents : ℚ) * res.pctQ / 100⌋ ∧
      res.remainingAmount = n.salaryCents - res.retainedAmount ∧
      res.retainedAmount + res.remainingAmount = n.salaryCents ∧
      res.percentDisplay =
        fmtFixed2Frac (pclamp d).num (pow10 (pclamp d).scale) ++ ['%'] ∧
      TwoDecimalPercentDisplay res.percentDisplay := by
  have hcast : ((pow10 (pclamp d).scale : ℤ) : ℚ) =
      (10 : ℚ) ^ (pclamp d).scale := by
    rw [pow10_eq]
    push_cast
    ring
  refine ⟨_, compute_percent_eq n cy d hm hp, ?_, ?_, ?_, ?_, rfl,
    by dsimp only; ring, rfl, ?_⟩
  · show ((pclamp d).num : ℚ) / ((pow10 (pclamp d).scale : ℤ) : ℚ) =
      max 0 (min 100 d.toQ)
    rw [hcast, ← Dec.toQ, pclamp_toQ]
  · show 0 ≤ ((pclamp d).num : ℚ) / ((pow10 (pclamp d).scale : ℤ) : ℚ)
    rw [hcast, ← Dec.toQ, pclamp_toQ]
    exact le_max_left 0 _
  · show ((pclamp d).num : ℚ) / ((pow10 (pclamp d).scale : ℤ) : ℚ) ≤ 100
    rw [hcast, ← Dec.toQ, pclamp_toQ]
    exact max_le (by norm_num) (min_le_left _ _)
  · show n.salaryCents * (pclamp d).num / (100 * pow10 (pclamp d).scale) =
      ⌊(n.salaryCents : ℚ) *
        (((pclamp d).num : ℚ) / ((pow10 (pclamp d).scale : ℤ) : ℚ)) / 100⌋
    rw [hcast]
    exact percent_retained_floor _ _ _
  · obtain ⟨pre, d1, d2, hfmt, h1, h2, hdot, hne⟩ :=
      fmtFixed2Frac_structure (pclamp d).num (pow10 (pclamp d).scale)
    refine ⟨pre, d1, d2, ?_, h1, h2, hdot, hne⟩
    show fmtFixed2Frac (pclamp d).num (pow10 (pclamp d).scale) ++ ['%'] =
      pre ++ ['.', d1, d2, '%']
    rw [hfmt]
    simp

/-- The parsed retention fraction of the percent witness. -/
def decP : Dec := ⟨25, 0⟩

/-- C2 witness: the percent computation at the concrete trade. -/
theorem C2_witness :
    ∃ res, compute tradeP 2024 = Except.ok res ∧
      res.pctQ = max 0 (min 100 decP.toQ) ∧
      0 ≤ res.pctQ ∧ res.pctQ ≤ 100 ∧
      res.retainedAmount = ⌊(tradeP.salaryCents : ℚ) * res.pctQ / 100⌋ ∧
      res.remainingAmount = tradeP.salaryCents - res.retainedAmount ∧
      res.retainedAmount + res.remainingAmount = tradeP.salaryCents ∧
      res.percentDisplay =
        fmtFixed2Frac (pclamp decP).num (pow10 (pclamp decP).scale) ++ ['%'] ∧
      TwoDecimalPercentDisplay res.percentDisplay :=
  C2_percent_mode tradeP 2024 decP rfl (by decide) (by decide)

/-! ### Claim C3: numeric mode -/

/-- C3: in numeric mode with a non-negative salary, the retention text
parses as a number which is truncated toward zero and clamped below at
zero (with no upper clamp against the salary), the remainder is the
salary minus the retained amount clamped below at zero, and the implied
percentage is retained over salary times one hundred for a positive
salary and zero for a zero salary; a parse failure yields the
invalid-retention-amount rejection. -/
theorem C3_numeric_mode :
    (∀ (n : NormalizedTrade) (cy : ℤ) (d : Dec),
      n.mode = Mode.numeric → 0 ≤ n.salaryCents →
      parseFloatPy n.retentionRaw = some d →
      ∃ res, compute n cy = Except.ok res ∧
        res.retainedAmount = max 0 (ratTrunc d.toQ) ∧
        res.remainingAmount = max 0 (n.salaryCents - res.retainedAmount) ∧
        0 ≤ res.retainedAmount ∧
        (0 < n.salaryCents →
          res.pctQ = (res.retainedAmount : ℚ) / (n.salaryCents : ℚ) * 100) ∧
        (n.salaryCents = 0 → res.pctQ = 0)) ∧
    (∀ (n : NormalizedTrade) (cy : ℤ),
      n.mode = Mode.numeric → parseFloatPy n.retentionRaw = none →
      compute n cy = Except.error RejectionReason.invalidRetentionAmount) := by
  constructor
  · intro n cy d hm hs hp
    refine ⟨_, compute_numeric_eq n cy d hm hp, ?_, rfl, le_max_left 0 _,
      ?_, ?_⟩
    · exact congrArg (max 0) (tdiv_pow10_eq_ratTrunc d.num d.scale)
    · intro hspos
      unfold RetentionResult.pctQ
      dsimp only
      rw [if_pos hspos, if_pos hspos]
      push_cast
      ring
    · intro hs0
      unfold RetentionResult.pctQ
      dsimp only
      rw [if_neg (by omega), if_neg (by omega)]
      norm_num
  · intro n cy hm hp
    exact compute_numeric_fail n cy hm hp

/-- The concrete numeric-mode trade of the end-to-end scenario. -/
def tradeN : NormalizedTrade :=
  ⟨ofString "A", ofString "B", ofString "P", ofString "s", 5000000, 1,
    Mode.numeric, ofString "1000000"⟩

/-- The parsed retention fraction of the numeric witness. -/
def decN : Dec := ⟨1000000, 0⟩

/-- C3 witness: the numeric computation at the concrete trade. -/
theorem C3_witness :
    ∃ res, compute tradeN 2024 = Except.ok res ∧
      res.retainedAmount = max 0 (ratTrunc decN.toQ) ∧
      res.remainingAmount = max 0 (tradeN.salaryCents - res.retainedAmount) ∧
      0 ≤ res.retainedAmount ∧
      (0 < tradeN.salaryCents →
        res.pctQ = (res.retainedAmount : ℚ) / (tradeN.salaryCents : ℚ) * 100) ∧
      (tradeN.salaryCents = 0 → res.pctQ = 0) :=
  C3_numeric_mode.1 tradeN 2024 decN rfl (by decide) (by decide)

/-! ### Name-line regex lemmas -/

theorem takeWhile_append_of_all {p : Char → Bool} {l₁ l₂ : Str}
    (h : ∀ c ∈ l₁, p c = true) :
    (l₁ ++ l₂).takeWhile p = l₁ ++ l₂.takeWhile p := by
  induction l₁ with
  | nil => simp
  | cons c cs ih =>
      have hc : p c = true := h c (List.mem_cons_self c cs)
      have ih' := ih (fun x hx => h x (List.mem_cons_of_mem c hx))
      simp [List.takeWhile_cons, hc, ih']

theorem prefix_take_eq {l₁ l₂ : Str} {j : ℕ} (h : l₁ <+: l₂)
    (hj : j ≤ l₁.length) : l₂.take j = l₁.take j := by
  obtain ⟨t, rfl⟩ := h
  exact List.take_append_of_le_length hj

theorem stripCIHead_some {pat l rest : Str}
    (h : stripCIHead pat l = some rest) :
    lowerStr (l.take pat.length) = pat ∧ rest = l.drop pat.length := by
  unfold stripCIHead at h
  by_cases hc : lowerStr (l.take pat.length) = pat
  · rw [if_pos hc] at h
    exact ⟨hc, (Option.some.inj h).symm⟩
  · rw [if_neg hc] at h
    exact absurd h (by simp)

theorem stripCIHead_of {pat l : Str}
    (hc : lowerStr (l.take pat.length) = pat) :
    stripCIHead pat l = some (l.drop pat.length) := by
  unfold stripCIHead
  rw [if_pos hc]

theorem stripCIHead_none {pat l : Str}
    (hc : lowerStr (l.take pat.length) ≠ pat) :
    stripCIHead pat l = none := by
  unfold stripCIHead
  rw [if_neg hc]

theorem greedyCap_sound (rest cap : Str) (h : greedyCap rest = some cap) :
    ∃ seps, rest = seps ++ cap ∧ seps ≠ [] ∧
      (∀ c ∈ seps, sepClass c = true) ∧ 2 ≤ cap.length ∧
      cap.length ≤ 60 := by
  have hdef : greedyCap rest =
      if 1 ≤ min (rest.takeWhile sepClass).length (rest.length - 2) ∧
          rest.length -
            min (rest.takeWhile sepClass).length (rest.length - 2) ≤ 60 then
        some (rest.drop
          (min (rest.takeWhile sepClass).length (rest.length - 2)))
      else none := rfl
  rw [hdef] at h
  by_cases hcond : 1 ≤ min (rest.takeWhile sepClass).length
      (rest.length - 2) ∧
      rest.length -
        min (rest.takeWhile sepClass).length (rest.length - 2) ≤ 60
  · rw [if_pos hcond] at h
    have hcap := Option.some.inj h
    refine ⟨rest.take
      (min (rest.takeWhile sepClass).length (rest.length - 2)), ?_, ?_, ?_,
      ?_, ?_⟩
    · rw [← hcap]
      exact (List.take_append_drop _ rest).symm
    · intro hnil
      have hlen := congrArg List.length hnil
      rw [List.length_take, List.length_nil] at hlen
      omega
    · intro c hc
      have h1 : rest.take
          (min (rest.takeWhile sepClass).length (rest.length - 2)) =
          (rest.takeWhile sepClass).take
            (min (rest.takeWhile sepClass).length (rest.length - 2)) :=
        prefix_take_eq (List.takeWhile_prefix sepClass) (min_le_left _ _)
      rw [h1] at hc
      exact List.mem_takeWhile_imp (List.mem_of_mem_take hc)
    · rw [← hcap, List.length_drop]
      omega
    · rw [← hcap, List.length_drop]
      exact hcond.2
  · rw [if_neg hcond] at h
    exact absurd h (by simp)

theorem greedyCap_complete (seps cap : Str) (hseps : seps ≠ [])
    (hsepc : ∀ c ∈ seps, sepClass c = true) (hc2 : 2 ≤ cap.length)
    (hc60 : cap.length ≤ 60) :
    (greedyCap (seps ++ cap)).isSome = true := by
  have htw : (seps ++ cap).takeWhile sepClass =
      seps ++ cap.takeWhile sepClass := takeWhile_append_of_all hsepc
  have hk : ((seps ++ cap).takeWhile sepClass).length =
      seps.length + (cap.takeWhile sepClass).length := by
    rw [htw, List.length_append]
  have hL : (seps ++ cap).length = seps.length + cap.length :=
    List.length_append seps cap
  have hslen : 1 ≤ seps.length := by
    have := List.length_pos.mpr hseps
    omega
  have htwle : (cap.takeWhile sepClass).length ≤ cap.length :=
    (List.takeWhile_prefix sepClass).length_le
  have hdef : greedyCap (seps ++ cap) =
      if 1 ≤ min ((seps ++ cap).takeWhile sepClass).length
            ((seps ++ cap).length - 2) ∧
          (seps ++ cap).length -
            min ((seps ++ cap).takeWhile sepClass).length
              ((seps ++ cap).length - 2) ≤ 60 then
        some ((seps ++ cap).drop
          (min ((seps ++ cap).takeWhile sepClass).length
            ((seps ++ cap).length - 2)))
      else none := rfl
  rw [hdef, if_pos (by omega)]
  rfl

theorem nameLineMatch_sound (ln cap : Str)
    (h : nameLineMatch ln = some cap) :
    ∃ pre seps, ln = pre ++ seps ++ cap ∧
      (lowerStr pre = ofString "name" ∨ lowerStr pre = ofString "player") ∧
      seps ≠ [] ∧ (∀ c ∈ seps, sepClass c = true) ∧
      2 ≤ cap.length ∧ cap.length ≤ 60 := by
  have hfromGreedy :
      ∀ pat rest, stripCIHead pat ln = some rest →
        greedyCap rest = some cap →
        lowerStr pat = pat →
        ∃ pre seps, ln = pre ++ seps ++ cap ∧
          (lowerStr pre = pat) ∧
          seps ≠ [] ∧ (∀ c ∈ seps, sepClass c = true) ∧
          2 ≤ cap.length ∧ cap.length ≤ 60 := by
    intro pat rest hstrip hg _
    obtain ⟨hlow, hrest⟩ := stripCIHead_some hstrip
    obtain ⟨seps, hrs, hne, hall, h2, h60⟩ := greedyCap_sound rest cap hg
    refine ⟨ln.take pat.length, seps, ?_, hlow, hne, hall, h2, h60⟩
    rw [List.append_assoc, ← hrs, hrest]
    exact (List.take_append_drop _ ln).symm
  unfold nameLineMatch at h
  cases hname : stripCIHead (ofString "name") ln with
  | some rest =>
      rw [hname] at h
      dsimp only at h
      cases hg : greedyCap rest with
      | some cap2 =>
          rw [hg] at h
          dsimp only at h
          have hcc := Option.some.inj h
          subst hcc
          obtain ⟨pre, seps, h1, h2, h3, h4, h5, h6⟩ :=
            hfromGreedy (ofString "name") rest hname hg (by decide)
          exact ⟨pre, seps, h1, Or.inl h2, h3, h4, h5, h6⟩
      | none =>
          rw [hg] at h
          dsimp only at h
          cases hpl : stripCIHead (ofString "player") ln with
          | some rest2 =>
              exfalso
              have ha := (stripCIHead_some hname).1
              have hb := (stripCIHead_some hpl).1
              unfold lowerStr at ha hb
              have h4 : ((ln.take (ofString "player").length).map
                  (fun c => c.toLower)).take 4 =
                  (ofString "player").take 4 := by rw [hb]
              rw [← List.map_take, List.take_take] at h4
              have hmin : min 4 (ofString "player").length = 4 := by decide
              rw [hmin] at h4
              have : (ofString "name") = (ofString "player").take 4 := by
                rw [← ha]
                exact h4 ▸ (by rfl)
              exact absurd this (by decide)
          | none =>
              rw [hpl] at h
              exact absurd h (by simp)
  | none =>
      rw [hname] at h
      dsimp only at h
      cases hpl : stripCIHead (ofString "player") ln with
      | some rest =>
          rw [hpl] at h
          dsimp only at h
          cases hg : greedyCap rest with
          | some cap2 =>
              rw [hg] at h
              have hcc := Option.some.inj h
              subst hcc
              obtain ⟨pre, seps, h1, h2, h3, h4, h5, h6⟩ :=
                hfromGreedy (ofString "player") rest hpl hg (by decide)
              exact ⟨pre, seps, h1, Or.inr h2, h3, h4, h5, h6⟩
          | none =>
              rw [hg] at h
              exact absurd h (by simp)
      | none =>
          rw [hpl] at h
          exact absurd h (by simp)

theorem nameLineMatch_complete (ln pre seps cap : Str)
    (hln : ln = pre ++ seps ++ cap)
    (hpre : lowerStr pre = ofString "name" ∨
      lowerStr pre = ofString "player")
    (hseps : seps ≠ []) (hsepc : ∀ c ∈ seps, sepClass c = true)
    (hc2 : 2 ≤ cap.length) (hc60 : cap.length ≤ 60) :
    (nameLineMatch ln).isSome = true := by
  have hgen : ∀ pat : Str, lowerStr pre = pat →
      stripCIHead pat ln = some (seps ++ cap) := by
    intro pat hpat
    have hlen : pre.length = pat.length := by
      have h' := congrArg List.length hpat
      unfold lowerStr at h'
      rwa [List.length_map] at h'
    have htake : ln.take pat.length = pre := by
      rw [hln, List.append_assoc]
      exact List.take_left' hlen
    have hdrop : ln.drop pat.length = seps ++ cap := by
      rw [hln, List.append_assoc]
      exact List.drop_left' hlen
    rw [stripCIHead_of (by rw [htake]; exact hpat), hdrop]
  have hgc : (greedyCap (seps ++ cap)).isSome = true :=
    greedyCap_complete seps cap hseps hsepc hc2 hc60
  rcases hpre with hpat | hpat
  · have hname := hgen (ofString "name") hpat
    unfold nameLineMatch
    rw [hname]
    dsimp only
    cases hg : greedyCap (seps ++ cap) with
    | some cap2 => rfl
    | none =>
        rw [hg] at hgc
        exact absurd hgc (by simp)
  · have hpl := hgen (ofString "player") hpat
    have hname : stripCIHead (ofString "name") ln = none := by
      apply stripCIHead_none
      intro hcontra
      have hlen : pre.length = (ofString "player").length := by
        have h' := congrArg List.length hpat
        unfold lowerStr at h'
        rwa [List.length_map] at h'
      have htake4 : ln.take (ofString "name").length =
          pre.take 4 := by
        rw [hln, List.append_assoc]
        have h4 : (ofString "name").length = 4 := by decide
        have h6 : (ofString "player").length = 6 := by decide
        rw [h4]
        exact List.take_append_of_le_length (by omega)
      rw [htake4] at hcontra
      have hc4 : (lowerStr pre).take 4 = (ofString "player").take 4 := by
        rw [hpat]
      unfold lowerStr at hcontra hc4
      rw [← List.map_take] at hc4
      rw [hcontra] at hc4
      exact absurd hc4 (by decide)
    unfold nameLineMatch
    rw [hname]
    dsimp only
    rw [hpl]
    dsimp only
    cases hg : greedyCap (seps ++ cap) with
    | some cap2 => rfl
    | none =>
        rw [hg] at hgc
        exact absurd hgc (by simp)

/-! ### Claim C8: player-name extraction -/

/-- C8: player-name extraction is total and follows the specified rules:
no non-empty trimmed line gives the unknown-player fallback; otherwise
the first of the first eight lines matching the case-insensitive
name-or-player pattern (a prefix lowering to "name" or "player", a
non-empty run of colon, whitespace or hyphen characters, and a capture
of 2 to 60 characters to the end of the line) yields the trimmed
capture; otherwise the first line is cut before the first " - ", else
before the first comma when that prefix is under 40 characters, else
truncated to its first 60 characters, trimmed; the three concrete
examples behave as stated. -/
theorem C8_player_name :
    (∀ s : Str, pyLines s = [] →
      extract_player_name s = ofString "Unknown Player") ∧
    (∀ (s cap first : Str) (rest : List Str), pyLines s = first :: rest →
      List.findSome? nameLineMatch ((pyLines s).take 8) = some cap →
      extract_player_name s = pyStrip cap ∧
      ∃ ln, ln ∈ (pyLines s).take 8 ∧ nameLineMatch ln = some cap) ∧
    (∀ ln cap, nameLineMatch ln = some cap →
      ∃ pre seps, ln = pre ++ seps ++ cap ∧
        (lowerStr pre = ofString "name" ∨
          lowerStr pre = ofString "player") ∧
        seps ≠ [] ∧ (∀ c ∈ seps, sepClass c = true) ∧
        2 ≤ cap.length ∧ cap.length ≤ 60) ∧
    (∀ ln pre seps cap, ln = pre ++ seps ++ cap →
      (lowerStr pre = ofString "name" ∨
        lowerStr pre = ofString "player") →
      seps ≠ [] → (∀ c ∈ seps, sepClass c = true) →
      2 ≤ cap.length → cap.length ≤ 60 →
      (nameLineMatch ln).isSome = true) ∧
    (∀ (s first : Str) (rest : List Str), pyLines s = first :: rest →
      List.findSome? nameLineMatch ((pyLines s).take 8) = none →
      (∀ a b, splitFirstOn (ofString " - ") first = some (a, b) →
        extract_player_name s = pyStrip a) ∧
      (splitFirstOn (ofString " - ") first = none →
        ∀ a b, splitFirstOn [','] first = some (a, b) →
        (a.length < 40 → extract_player_name s = pyStrip a) ∧
        (40 ≤ a.length →
          extract_player_name s = pyStrip (first.take 60))) ∧
      (splitFirstOn (ofString " - ") first = none →
        splitFirstOn [','] first = none →
        extract_player_name s = pyStrip (first.take 60))) ∧
    extract_player_name (ofString "Name: Jane Doe\nGP: 10") =
      ofString "Jane Doe" ∧
    extract_player_name (ofString "Jane Doe - Forward") =
      ofString "Jane Doe" ∧
    extract_player_name (ofString "") = ofString "Unknown Player" := by
  refine ⟨?_, ?_, nameLineMatch_sound, nameLineMatch_complete, ?_,
    by decide, by decide, by decide⟩
  · intro s h
    unfold extract_player_name
    rw [h]
  · intro s cap first rest hl hfind
    rw [hl] at hfind
    constructor
    · unfold extract_player_name
      rw [hl, hfind]
    · rw [← hl] at hfind
      exact List.exists_of_findSome?_eq_some hfind
  · intro s first rest hl hfind
    rw [hl] at hfind
    refine ⟨?_, ?_, ?_⟩
    · intro a b hdash
      unfold extract_player_name
      rw [hl, hfind]
      dsimp only
      rw [hdash]
    · intro hdash a b hcomma
      constructor
      · intro h40
        unfold extract_player_name
        rw [hl, hfind]
        dsimp only
        rw [hdash]
        dsimp only
        rw [hcomma]
        dsimp only
        rw [if_pos h40]
      · intro h40
        unfold extract_player_name
        rw [hl, hfind]
        dsimp only
        rw [hdash]
        dsimp only
        rw [hcomma]
        dsimp only
        rw [if_neg (by omega)]
    · intro hdash hcomma
      unfold extract_player_name
      rw [hl, hfind]
      dsimp only
      rw [hdash]
      dsimp only
      rw [hcomma]

/-- C8 witness: the concrete extraction instances. -/
theorem C8_witness :
    extract_player_name (ofString "Name: Jane Doe\nGP: 10") =
      ofString "Jane Doe" ∧
    extract_player_name (ofString "") = ofString "Unknown Player" :=
  ⟨C8_player_name.2.2.2.2.2.1, C8_player_name.2.2.2.2.2.2.2⟩

/-! ### Whitespace-stripping lemmas -/

theorem pyStrip_eq_nil_iff (l : Str) :
    pyStrip l = [] ↔ ∀ c ∈ l, isSpacePy c = true := by
  unfold pyStrip dropTrailingSpaces
  constructor
  · intro h c hc
    rw [List.reverse_eq_nil_iff] at h
    have h2 : ∀ x ∈ (l.dropWhile isSpacePy).reverse, isSpacePy x = true :=
      List.dropWhile_eq_nil_iff.mp h
    have h3 : ∀ x ∈ l.dropWhile isSpacePy, isSpacePy x = true :=
      fun x hx => h2 x (List.mem_reverse.mpr hx)
    rw [← List.takeWhile_append_dropWhile isSpacePy l] at hc
    rcases List.mem_append.mp hc with hc | hc
    · exact List.mem_takeWhile_imp hc
    · exact h3 c hc
  · intro h
    have h1 : l.dropWhile isSpacePy = [] :=
      List.dropWhile_eq_nil_iff.mpr h
    rw [h1]
    rfl

theorem head?_dropWhile {p : Char → Bool} (l : Str) {c : Char}
    (h : (l.dropWhile p).head? = some c) : p c = false := by
  induction l with
  | nil => simp at h
  | cons x xs ih =>
      rw [List.dropWhile_cons] at h
      by_cases hx : p x = true
      · rw [if_pos hx] at h
        exact ih h
      · rw [if_neg hx] at h
        have hxc : x = c := by simpa using h
        subst hxc
        simpa using hx

theorem pyStrip_head?_not_space (l : Str) {c : Char}
    (h : (pyStrip l).head? = some c) : isSpacePy c = false := by
  have hpre : pyStrip l <+: l.dropWhile isSpacePy := by
    unfold pyStrip dropTrailingSpaces
    have h1 : List.dropWhile isSpacePy ((l.dropWhile isSpacePy).reverse) <:+
        (l.dropWhile isSpacePy).reverse := List.dropWhile_suffix isSpacePy
    rw [← List.reverse_reverse
      (List.dropWhile isSpacePy ((l.dropWhile isSpacePy).reverse))] at h1
    exact (List.reverse_suffix).mp h1
  obtain ⟨t, ht⟩ := hpre
  cases hps : pyStrip l with
  | nil =>
      rw [hps] at h
      simp at h
  | cons a as =>
      rw [hps] at h ht
      have hac : a = c := by simpa using h
      subst hac
      have hh : (l.dropWhile isSpacePy).head? = some a := by
        rw [← ht]
        rfl
      exact head?_dropWhile l hh

theorem pyStrip_getLast?_not_space (l : Str) {c : Char}
    (h : (pyStrip l).getLast? = some c) : isSpacePy c = false := by
  unfold pyStrip dropTrailingSpaces at h
  rw [List.getLast?_reverse] at h
  exact head?_dropWhile _ h

theorem mem_of_mem_pyStrip {l : Str} {c : Char} (h : c ∈ pyStrip l) :
    c ∈ l := by
  unfold pyStrip dropTrailingSpaces at h
  rw [List.mem_reverse] at h
  have h1 := (List.dropWhile_suffix isSpacePy).sublist.subset h
  rw [List.mem_reverse] at h1
  exact (List.dropWhile_suffix isSpacePy).sublist.subset h1

theorem pyLines_mem {s ln : Str} (h : ln ∈ pyLines s) :
    ln ≠ [] ∧ ∃ x, ln = pyStrip x := by
  unfold pyLines at h
  obtain ⟨hmem, hcond⟩ := List.mem_filter.mp h
  obtain ⟨x, hx, rfl⟩ := List.mem_map.mp hmem
  refine ⟨?_, x, rfl⟩
  intro hnil
  rw [hnil] at hcond
  exact absurd hcond (by decide)

/-! ### Sign of parsed integers -/

theorem parseIntPy_nonneg {l : Str} {v : ℤ} (hm : ('-') ∉ l)
    (h : parseIntPy l = some v) : 0 ≤ v := by
  unfold parseIntPy at h
  split at h
  · exact absurd (List.mem_cons_self _ _) hm
  · split at h
    · have := Option.some.inj h
      subst this
      exact Int.natCast_nonneg _
    · exact absurd h (by simp)

theorem parse_salary_to_int_nonneg {s : Str} {v : ℤ} (hm : ('-') ∉ s)
    (h : parse_salary_to_int s = some v) : 0 ≤ v := by
  unfold parse_salary_to_int at h
  by_cases hse : s.isEmpty = true
  · rw [if_pos hse] at h
    exact absurd h (by simp)
  · rw [if_neg hse] at h
    by_cases hbad : cleanIntChars s = [] ∨ cleanIntChars s = ['-'] ∨
        cleanIntChars s = ['-', '-']
    · rw [if_pos hbad] at h
      exact absurd h (by simp)
    · rw [if_neg hbad] at h
      apply parseIntPy_nonneg _ h
      intro hmem
      exact hm (List.mem_of_mem_filter hmem)

/-! ### Non-emptiness of the extracted player name -/

theorem extract_player_name_ne_nil (s : Str)
    (hguard : ((pyLines s).head?).bind List.head? ≠ some ',') :
    extract_player_name s ≠ [] := by
  cases hl : pyLines s with
  | nil =>
      unfold extract_player_name
      rw [hl]
      decide
  | cons first rest =>
      have hfmem : first ∈ pyLines s := by
        rw [hl]
        exact List.mem_cons_self _ _
      obtain ⟨hfne, x, hfx⟩ := pyLines_mem hfmem
      have hfhead : ∃ c, first.head? = some c ∧ isSpacePy c = false := by
        cases hh : first.head? with
        | none =>
            rw [List.head?_eq_none_iff] at hh
            exact absurd hh hfne
        | some c =>
            refine ⟨c, rfl, ?_⟩
            rw [hfx] at hh
            exact pyStrip_head?_not_space x hh
      obtain ⟨c0, hc0, hc0s⟩ := hfhead
      have hne_of_head : ∀ a : Str, a.head? = some c0 → pyStrip a ≠ [] := by
        intro a ha hnil
        rw [pyStrip_eq_nil_iff] at hnil
        have hmem : c0 ∈ a := by
          cases a with
          | nil => simp at ha
          | cons u us =>
              have : u = c0 := by simpa using ha
              subst this
              exact List.mem_cons_self _ _
        have := hnil c0 hmem
        rw [this] at hc0s
        exact absurd hc0s (by decide)
      have hhead_pre : ∀ a t : Str, a ≠ [] → a ++ t = first →
          a.head? = some c0 := by
        intro a t hane heq
        cases a with
        | nil => exact absurd rfl hane
        | cons u us =>
            rw [← heq] at hc0
            exact hc0
      have htake60 : (first.take 60).head? = first.head? := by
        cases first with
        | nil => rfl
        | cons u us => rfl
      cases hfind : List.findSome? nameLineMatch ((pyLines s).take 8) with
      | some cap =>
          obtain ⟨ln, hmem8, hla⟩ := List.exists_of_findSome?_eq_some hfind
          have hres : extract_player_name s = pyStrip cap := by
            rw [hl] at hfind
            unfold extract_player_name
            rw [hl, hfind]
          have hlnmem : ln ∈ pyLines s := List.mem_of_mem_take hmem8
          obtain ⟨hlnne, y, hly⟩ := pyLines_mem hlnmem
          obtain ⟨pre, seps, hdec, -, -, -, h2, -⟩ :=
            nameLineMatch_sound ln cap hla
          have hcapne : cap ≠ [] := by
            intro hnil
            rw [hnil] at h2
            simp at h2
          cases hcg : cap.getLast? with
          | none =>
              rw [List.getLast?_eq_none_iff] at hcg
              exact absurd hcg hcapne
          | some c =>
              have hlast : ln.getLast? = some c := by
                rw [hdec, List.getLast?_append, hcg]
                rfl
              have hcs : isSpacePy c = false := by
                rw [hly] at hlast
                exact pyStrip_getLast?_not_space y hlast
              rw [hres]
              intro hnil
              rw [pyStrip_eq_nil_iff] at hnil
              have := hnil c (List.mem_of_getLast?_eq_some hcg)
              rw [this] at hcs
              exact absurd hcs (by decide)
      | none =>
          rw [hl] at hfind
          cases hdash : splitFirstOn (ofString " - ") first with
          | some p =>
              obtain ⟨a, b⟩ := p
              obtain ⟨hdec, -, -⟩ := splitFirstOn_some _ _ _ _ hdash
              have hane : a ≠ [] := by
                intro hnil
                rw [hnil, List.nil_append] at hdec
                rw [hdec] at hc0
                have hsp : c0 = ' ' := by
                  have : (ofString " - " ++ b).head? = some ' ' := rfl
                  rw [this] at hc0
                  exact (Option.some.inj hc0).symm
                rw [hsp] at hc0s
                exact absurd hc0s (by decide)
              have hres : extract_player_name s = pyStrip a := by
                unfold extract_player_name
                rw [hl, hfind]
                dsimp only
                rw [hdash]
              rw [hres]
              exact hne_of_head a
                (hhead_pre a (ofString " - " ++ b) hane
                  (by rw [hdec, List.append_assoc]))
          | none =>
              cases hcomma : splitFirstOn [','] first with
              | some p =>
                  obtain ⟨a, b⟩ := p
                  obtain ⟨hdec, -, -⟩ := splitFirstOn_some _ _ _ _ hcomma
                  have hane : a ≠ [] := by
                    intro hnil
                    rw [hnil, List.nil_append] at hdec
                    apply hguard
                    rw [hl, hdec]
                    rfl
                  have hres : extract_player_name s =
                      (if a.length < 40 then pyStrip a
                        else pyStrip (first.take 60)) := by
                    unfold extract_player_name
                    rw [hl, hfind]
                    dsimp only
                    rw [hdash]
                    dsimp only
                    rw [hcomma]
                  rw [hres]
                  by_cases h40 : a.length < 40
                  · rw [if_pos h40]
                    exact hne_of_head a
                      (hhead_pre a ([','] ++ b) hane
                        (by rw [hdec, List.append_assoc]))
                  · rw [if_neg h40]
                    apply hne_of_head
                    rw [htake60]
                    exact hc0
              | none =>
                  have hres : extract_player_name s =
                      pyStrip (first.take 60) := by
                    unfold extract_player_name
                    rw [hl, hfind]
                    dsimp only
                    rw [hdash]
                    dsimp only
                    rw [hcomma]
                  rw [hres]
                  apply hne_of_head
                  rw [htake60]
                  exact hc0

/-! ### Claim C4: normalized-trade field invariants -/

/-- C4 counterexample: the submission with stats ",abc" and salary
"-100" normalizes successfully, yet the player name is the empty string
and the salary is negative. -/
theorem C4_counterexample :
    (normalize Mode.percent (ofString "A") (ofString ",abc")
        (ofString "-100") (ofString "25") (ofString "1")).map
      (fun n => (n.playerName, n.salaryCents)) =
      Except.ok (([] : Str), (-100 : ℤ)) ∧
    ((-100 : ℤ) < 0) := by
  exact ⟨by decide, by decide⟩

/-- C4 (amended): on every successful normalization the salary is an
integer which is non-negative whenever the salary text contains no
minus sign, and the player name is non-empty whenever the first
non-empty trimmed stats line does not begin with a comma. -/
theorem C4_amended (mode : Mode) (t s sal r y : Str) (n : NormalizedTrade)
    (h : normalize mode t s sal r y = Except.ok n) :
    (('-') ∉ sal → 0 ≤ n.salaryCents) ∧
    (((pyLines (pyStrip s)).head?).bind List.head? ≠ some ',' →
      n.playerName ≠ []) := by
  have hf := normalize_ok_fields h
  constructor
  · intro hminus
    apply parse_salary_to_int_nonneg _ hf.2.2.2.2.1
    intro hmem
    exact hminus (mem_of_mem_pyStrip hmem)
  · intro hguard
    rw [hf.2.2.1]
    exact extract_player_name_ne_nil (pyStrip s) hguard

/-- The concrete trade used to witness the amended field invariants. -/
def tradeC4 : NormalizedTrade :=
  ⟨ofString "A", ofString "Unknown", ofString "Bob", ofString "Bob", 7, 0,
    Mode.percent, ofString "25"⟩

/-- C4 witness: the amended invariants at a concrete submission. -/
theorem C4_witness :
    (('-') ∉ ofString "7" → 0 ≤ tradeC4.salaryCents) ∧
    (((pyLines (pyStrip (ofString "Bob"))).head?).bind List.head? ≠
        some ',' →
      tradeC4.playerName ≠ []) :=
  C4_amended Mode.percent (ofString "A") (ofString "Bob") (ofString "7")
    (ofString "25") (ofString "0") tradeC4 (by decide)

end Retention
